import Mathlib

/-!
A verification development for the CSP solver of `Assignment.py`
(a Sudoku / constraint-satisfaction homework repository).

The Python class `CSP` keeps three insertion-ordered dictionaries:
`variables` (a list), `domains` (variable name -> list of legal values) and
`constraints` (name -> name -> list of permitted value pairs).  The solver is
`backtracking_search`, which deep-copies the domains, runs the AC-3 routine
`inference` over all arcs and then calls the recursive `backtrack`.

The embedding below models Python dictionaries as insertion-ordered
association lists, in-place mutation by explicit state passing (each function
returns the mutated dictionary it received), and a raised `KeyError` as an
`Option`/`.crash` result.  The heterogeneous worklist of `inference` (whose
entries are pairs of variable names initially, but pairs whose first component
is itself a pair after the code appends `(neighbour, x)` with `neighbour` a
tuple) is modelled by the union type `PyKey`.
-/

namespace Assignment

/-- A domain snapshot: the `assignment` dictionary the solver passes around,
mapping each variable name to the list of its currently legal values. -/
abbrev Assign (α : Type) := List (String × List α)

/-- Python dict lookup `d[k]` on an insertion-ordered association list;
`none` models a raised `KeyError`. -/
def dictGet {β : Type} (k : String) : List (String × β) → Option β
  | [] => none
  | p :: rest => if p.1 = k then some p.2 else dictGet k rest

/-- Python dict assignment `d[k] = v`: replaces the value at an existing key
in place (keeping its position), appends a fresh key at the end. -/
def dictSet {β : Type} (k : String) (v : β) : List (String × β) → List (String × β)
  | [] => [(k, v)]
  | p :: rest => if p.1 = k then (k, v) :: rest else p :: dictSet k v rest

/-- The `CSP` object of `Assignment.py`: `self.variables`, `self.domains` and
`self.constraints`, with the constraint table already materialised into lists
of permitted value pairs (as the drivers of the source file do with
`list(csp.constraints[constraint][entry])` before solving). -/
structure CSP (α : Type) where
  vars : List String
  domains : Assign α
  constraints : List (String × List (String × List (α × α)))

/-- A Python value that can appear in the worklist of `inference`: a variable
name, or a tuple.  The code appends entries `((i, x), x)` whose first
component is itself a tuple, so the entry type must be this union. -/
inductive PyKey where
  | name : String → PyKey
  | pair : PyKey → PyKey → PyKey

deriving instance DecidableEq for PyKey

/-- `self.constraints[i][j]`: the permitted value pairs registered for the
ordered pair `(i, j)`; `none` models a `KeyError` at either level. -/
def consLookup {α : Type} (csp : CSP α) (i j : String) : Option (List (α × α)) :=
  (dictGet i csp.constraints).bind (fun row => dictGet j row)

/-- `CSP.get_all_arcs`:
`[(i, j) for i in self.constraints for j in self.constraints[i]]`. -/
def get_all_arcs {α : Type} (csp : CSP α) : List (String × String) :=
  (csp.constraints.map
    (fun p => ((dictGet p.1 csp.constraints).getD []).map (fun c => (p.1, c.1)))).flatten

/-- `CSP.get_all_neighboring_arcs(var)`:
`[(i, var) for i in self.constraints[var]]`.  Note that it enumerates the
keys of row `var`, i.e. the arcs registered *from* `var`, and returns `none`
(`KeyError`) when `var` has no row. -/
def get_all_neighboring_arcs {α : Type} (csp : CSP α) (v : String) :
    Option (List (String × String)) :=
  (dictGet v csp.constraints).map (fun row => row.map (fun p => (p.1, v)))

/-- The body of `CSP.revise` (`Assignment.py`, lines 176-186), with Python's
list-iterator semantics made explicit.  `for iDomainValue in assignment[i]`
iterates by an internal index `k` over the *live* list: when the body executes
`assignment[i].remove(iDomainValue)` the element at position `k` (and everything
behind it) shifts left, so the next iteration skips the value that moved into
slot `k`.  Each outer iteration first evaluates `assignment[j]` (a `KeyError`,
i.e. `none`, when `j` is no key and the loop body is reached), then consults
`self.constraints[i][j]` only when `assignment[j]` is non-empty (a `KeyError`
when the arc is unregistered).  `revised` is the flag of line 176. -/
def reviseLoop {α : Type} [DecidableEq α] (csp : CSP α) (i j : String)
    (assign : Assign α) (k : Nat) (revised : Bool) : Option (Assign α × Bool) :=
  match hd : dictGet i assign with
  | none => none
  | some di =>
    if h : k < di.length then
      let v := di[k]
      match dictGet j assign with
      | none => none
      | some dj =>
        if dj.isEmpty then
          reviseLoop csp i j (dictSet i (di.erase v) assign) (k + 1) true
        else
          match consLookup csp i j with
          | none => none
          | some cs =>
            if dj.any (fun w => decide ((v, w) ∈ cs)) then
              reviseLoop csp i j assign (k + 1) revised
            else
              reviseLoop csp i j (dictSet i (di.erase v) assign) (k + 1) true
    else
      some (assign, revised)
termination_by ((dictGet i assign).getD []).length - k
decreasing_by
all_goals
  have hset : ∀ (l : Assign α) (v2 : List α), dictGet i (dictSet i v2 l) = some v2 := by
    intro l v2
    induction l with
    | nil => simp [dictGet, dictSet]
    | cons p rest ih =>
      by_cases hp : p.1 = i <;> simp [dictGet, dictSet, hp, ih]
all_goals
  have hmem : di[k] ∈ di := List.getElem_mem h
all_goals
  have hlen : (di.erase di[k]).length = di.length - 1 := List.length_erase_of_mem hmem
all_goals simp only [hset, hd, Option.getD_some]
all_goals omega

/-- `CSP.revise` (lines 164-186).  `i` and `j` are whatever the worklist of
`inference` destructured: when `i` is a tuple, `assignment[i]` raises at once;
when `j` is a tuple, it raises as soon as the outer loop body runs (i.e. when
`assignment[i]` is non-empty).  On success it returns the (possibly mutated)
assignment together with the `revised` flag. -/
def revise {α : Type} [DecidableEq α] (csp : CSP α) (assign : Assign α)
    (i j : PyKey) : Option (Assign α × Bool) :=
  match i, j with
  | .name si, .name sj => reviseLoop csp si sj assign 0 false
  | .name si, .pair _ _ =>
    match dictGet si assign with
    | none => none
    | some di => if di.isEmpty then some (assign, false) else none
  | .pair _ _, _ => none

/-- Total number of values held across all domains of a snapshot; the measure
that propagation and search shrink. -/
def totalSize {α : Type} (assign : Assign α) : Nat :=
  (assign.map (fun p => p.2.length)).sum

/-- `after` is the same dictionary as `before` except that each domain has
(possibly) lost some values: same keys in the same order, each value list a
sublist of the old one.  This is the monotonicity ("domains only shrink")
relation of the specification. -/
def Shrinks {α : Type} (after before : Assign α) : Prop :=
  List.Forall₂ (fun p q => p.1 = q.1 ∧ List.Sublist p.2 q.2) after before

theorem shrinks_refl {α : Type} (l : Assign α) : Shrinks l l := by
  induction l with
  | nil => exact List.Forall₂.nil
  | cons p rest ih => exact List.Forall₂.cons ⟨rfl, List.Sublist.refl _⟩ ih

theorem shrinks_trans {α : Type} {a b c : Assign α}
    (h1 : Shrinks a b) (h2 : Shrinks b c) : Shrinks a c := by
  induction h1 generalizing c with
  | nil => cases h2; exact List.Forall₂.nil
  | cons hpq _ ih =>
    cases h2 with
    | cons hqr hrest =>
      exact List.Forall₂.cons ⟨hpq.1.trans hqr.1, hpq.2.trans hqr.2⟩ (ih hrest)

theorem shrinks_totalSize_le {α : Type} {a b : Assign α}
    (h : Shrinks a b) : totalSize a ≤ totalSize b := by
  induction h with
  | nil => exact Nat.le_refl _
  | cons hpq _ ih =>
    have := hpq.2.length_le
    simp only [totalSize, List.map_cons, List.sum_cons] at *
    omega

theorem shrinks_dictGet {α : Type} {a b : Assign α} (h : Shrinks a b)
    {v : String} {d2 : List α} (hg : dictGet v a = some d2) :
    ∃ d1, dictGet v b = some d1 ∧ List.Sublist d2 d1 := by
  induction h with
  | nil => simp [dictGet] at hg
  | @cons x y l1 l2 hpq htail ih =>
    rw [dictGet] at hg
    rw [dictGet]
    by_cases hk : x.1 = v
    · rw [if_pos hk] at hg
      cases hg
      rw [if_pos (hpq.1 ▸ hk)]
      exact ⟨y.2, rfl, hpq.2⟩
    · rw [if_neg hk] at hg
      rw [if_neg (fun hy => hk (hpq.1.trans hy))]
      exact ih hg

theorem dictGet_dictSet_self {α : Type} (l : Assign α) (k : String) (v : List α) :
    dictGet k (dictSet k v l) = some v := by
  induction l with
  | nil => simp [dictGet, dictSet]
  | cons p rest ih => by_cases hp : p.1 = k <;> simp [dictGet, dictSet, hp, ih]

theorem dictSet_eq_of_dictGet {α : Type} {l : Assign α} {k : String} {v : List α}
    (h : dictGet k l = some v) : dictSet k v l = l := by
  induction l with
  | nil => simp [dictGet] at h
  | cons p rest ih =>
    rw [dictGet] at h
    by_cases hp : p.1 = k
    · rw [if_pos hp] at h
      cases h
      subst hp
      rw [dictSet, if_pos rfl]
    · rw [if_neg hp] at h
      rw [dictSet, if_neg hp, ih h]

theorem totalSize_dictSet {α : Type} {l : Assign α} {k : String} {d : List α}
    (h : dictGet k l = some d) (v : List α) :
    totalSize (dictSet k v l) + d.length = totalSize l + v.length := by
  induction l with
  | nil => simp [dictGet] at h
  | cons p rest ih =>
    rw [dictGet] at h
    by_cases hp : p.1 = k
    · rw [if_pos hp] at h
      cases h
      rw [dictSet, if_pos hp]
      simp only [totalSize, List.map_cons, List.sum_cons]
      omega
    · rw [if_neg hp] at h
      rw [dictSet, if_neg hp]
      have := ih h
      simp only [totalSize, List.map_cons, List.sum_cons] at this ⊢
      omega

theorem dictGet_length_le_totalSize {α : Type} {l : Assign α} {k : String}
    {d : List α} (h : dictGet k l = some d) : d.length ≤ totalSize l := by
  induction l with
  | nil => simp [dictGet] at h
  | cons p rest ih =>
    rw [dictGet] at h
    by_cases hp : p.1 = k
    · rw [if_pos hp] at h
      cases h
      simp only [totalSize, List.map_cons, List.sum_cons]
      omega
    · rw [if_neg hp] at h
      have := ih h
      simp only [totalSize, List.map_cons, List.sum_cons] at this ⊢
      omega

theorem dictSet_shrinks {α : Type} {l : Assign α} {k : String} {d : List α}
    (h : dictGet k l = some d) {v : List α} (hs : List.Sublist v d) :
    Shrinks (dictSet k v l) l := by
  induction l with
  | nil => simp [dictGet] at h
  | cons p rest ih =>
    rw [dictGet] at h
    by_cases hp : p.1 = k
    · rw [if_pos hp] at h
      cases h
      simp only [dictSet, if_pos hp]
      exact List.Forall₂.cons ⟨hp.symm, hs⟩ (shrinks_refl rest)
    · rw [if_neg hp] at h
      simp only [dictSet, if_neg hp]
      exact List.Forall₂.cons ⟨rfl, List.Sublist.refl _⟩ (ih h)

theorem reviseLoop_shrinks {α : Type} [DecidableEq α] {csp : CSP α} {i j : String} :
    ∀ {assign : Assign α} {k : Nat} {revised : Bool} {a2 : Assign α} {r2 : Bool},
    reviseLoop csp i j assign k revised = some (a2, r2) → Shrinks a2 assign := by
  intro assign k revised
  induction assign, k, revised using reviseLoop.induct csp i j with
  | case1 assign k revised hnone =>
    intro a2 r2 h
    rw [reviseLoop, hnone] at h
    exact absurd h (by simp)
  | case2 assign k revised di hdi hk hjnone =>
    intro a2 r2 h
    rw [reviseLoop, hdi] at h
    simp only [hk, reduceDIte, hjnone] at h
    exact absurd h (by simp)
  | case3 assign k revised di hdi hk v dj hdj hempty =>
    rename_i ih
    intro a2 r2 h
    rw [reviseLoop, hdi] at h
    simp only [hk, reduceDIte, hdj, hempty, if_true] at h
    exact shrinks_trans (ih h)
      (dictSet_shrinks hdi (List.erase_sublist _ _))
  | case4 assign k revised di hdi hk dj hdj hempty hcons =>
    intro a2 r2 h
    rw [reviseLoop, hdi] at h
    simp only [hk, reduceDIte, hdj, hempty, if_false, hcons] at h
    exact absurd h (by simp)
  | case5 assign k revised di hdi hk v dj hdj hempty cs hcons hany =>
    rename_i ih
    intro a2 r2 h
    rw [reviseLoop, hdi] at h
    simp only [hk, reduceDIte, hdj, hempty, if_false, hcons, hany, if_true] at h
    exact ih h
  | case6 assign k revised di hdi hk v dj hdj hempty cs hcons hany =>
    rename_i ih
    intro a2 r2 h
    rw [reviseLoop, hdi] at h
    simp only [hk, reduceDIte, hdj, hempty, if_false, hcons, hany] at h
    exact shrinks_trans (ih h)
      (dictSet_shrinks hdi (List.erase_sublist _ _))
  | case7 assign k revised di hdi hnk =>
    intro a2 r2 h
    rw [reviseLoop, hdi] at h
    simp only [hnk, reduceDIte] at h
    cases h
    exact shrinks_refl assign

theorem reviseLoop_size {α : Type} [DecidableEq α] {csp : CSP α} {i j : String} :
    ∀ {assign : Assign α} {k : Nat} {revised : Bool} {a2 : Assign α} {r2 : Bool},
    reviseLoop csp i j assign k revised = some (a2, r2) →
    totalSize a2 ≤ totalSize assign ∧
      (revised = false → r2 = true → totalSize a2 < totalSize assign) := by
  intro assign k revised
  induction assign, k, revised using reviseLoop.induct csp i j with
  | case1 assign k revised hnone =>
    intro a2 r2 h
    rw [reviseLoop, hnone] at h
    exact absurd h (by simp)
  | case2 assign k revised di hdi hk hjnone =>
    intro a2 r2 h
    rw [reviseLoop, hdi] at h
    simp only [hk, reduceDIte, hjnone] at h
    exact absurd h (by simp)
  | case3 assign k revised di hdi hk v dj hdj hempty =>
    rename_i ih
    intro a2 r2 h
    rw [reviseLoop, hdi] at h
    simp only [hk, reduceDIte, hdj, hempty, if_true] at h
    have hmem : v ∈ di := List.getElem_mem hk
    have hlen : (di.erase v).length = di.length - 1 := List.length_erase_of_mem hmem
    have hts := totalSize_dictSet hdi (di.erase v)
    have hlt : totalSize (dictSet i (di.erase v) assign) < totalSize assign := by omega
    have := (ih h).1
    exact ⟨by omega, fun _ _ => by omega⟩
  | case4 assign k revised di hdi hk dj hdj hempty hcons =>
    intro a2 r2 h
    rw [reviseLoop, hdi] at h
    simp only [hk, reduceDIte, hdj, hempty, if_false, hcons] at h
    exact absurd h (by simp)
  | case5 assign k revised di hdi hk v dj hdj hempty cs hcons hany =>
    rename_i ih
    intro a2 r2 h
    rw [reviseLoop, hdi] at h
    simp only [hk, reduceDIte, hdj, hempty, if_false, hcons, hany, if_true] at h
    exact ih h
  | case6 assign k revised di hdi hk v dj hdj hempty cs hcons hany =>
    rename_i ih
    intro a2 r2 h
    rw [reviseLoop, hdi] at h
    simp only [hk, reduceDIte, hdj, hempty, if_false, hcons, hany] at h
    have hmem : v ∈ di := List.getElem_mem hk
    have hlen : (di.erase v).length = di.length - 1 := List.length_erase_of_mem hmem
    have hts := totalSize_dictSet hdi (di.erase v)
    have hlt : totalSize (dictSet i (di.erase v) assign) < totalSize assign := by omega
    have := (ih h).1
    exact ⟨by omega, fun _ _ => by omega⟩
  | case7 assign k revised di hdi hnk =>
    intro a2 r2 h
    rw [reviseLoop, hdi] at h
    simp only [hnk, reduceDIte] at h
    cases h
    exact ⟨Nat.le_refl _, fun h1 h2 => absurd (h1.symm.trans h2) (by decide)⟩

theorem reviseLoop_false {α : Type} [DecidableEq α] {csp : CSP α} {i j : String} :
    ∀ {assign : Assign α} {k : Nat} {revised : Bool} {a2 : Assign α},
    reviseLoop csp i j assign k revised = some (a2, false) →
    a2 = assign ∧ revised = false := by
  intro assign k revised
  induction assign, k, revised using reviseLoop.induct csp i j with
  | case1 assign k revised hnone =>
    intro a2 h
    rw [reviseLoop, hnone] at h
    exact absurd h (by simp)
  | case2 assign k revised di hdi hk hjnone =>
    intro a2 h
    rw [reviseLoop, hdi] at h
    simp only [hk, reduceDIte, hjnone] at h
    exact absurd h (by simp)
  | case3 assign k revised di hdi hk v dj hdj hempty =>
    rename_i ih
    intro a2 h
    rw [reviseLoop, hdi] at h
    simp only [hk, reduceDIte, hdj, hempty, if_true] at h
    exact absurd (ih h).2 (by decide)
  | case4 assign k revised di hdi hk dj hdj hempty hcons =>
    intro a2 h
    rw [reviseLoop, hdi] at h
    simp only [hk, reduceDIte, hdj, hempty, if_false, hcons] at h
    exact absurd h (by simp)
  | case5 assign k revised di hdi hk v dj hdj hempty cs hcons hany =>
    rename_i ih
    intro a2 h
    rw [reviseLoop, hdi] at h
    simp only [hk, reduceDIte, hdj, hempty, if_false, hcons, hany, if_true] at h
    exact ih h
  | case6 assign k revised di hdi hk v dj hdj hempty cs hcons hany =>
    rename_i ih
    intro a2 h
    rw [reviseLoop, hdi] at h
    simp only [hk, reduceDIte, hdj, hempty, if_false, hcons, hany] at h
    exact absurd (ih h).2 (by decide)
  | case7 assign k revised di hdi hnk =>
    intro a2 h
    rw [reviseLoop, hdi] at h
    simp only [hnk, reduceDIte] at h
    cases h
    exact ⟨rfl, rfl⟩

theorem revise_shrinks {α : Type} [DecidableEq α] {csp : CSP α} {assign : Assign α}
    {x y : PyKey} {a2 : Assign α} {r : Bool}
    (h : revise csp assign x y = some (a2, r)) : Shrinks a2 assign := by
  cases x with
  | pair u w => rw [revise] at h; exact absurd h (by simp)
  | name si =>
    cases y with
    | name sj =>
      rw [revise] at h
      exact reviseLoop_shrinks h
    | pair u w =>
      rw [revise] at h
      rcases hdg : dictGet si assign with _ | di
      · rw [hdg] at h
        exact absurd h (by simp)
      · rw [hdg] at h
        by_cases he : di.isEmpty
        · simp [he] at h
          obtain ⟨h1, h2⟩ := h
          subst h1
          exact shrinks_refl assign
        · simp [he] at h

theorem revise_false_eq {α : Type} [DecidableEq α] {csp : CSP α} {assign : Assign α}
    {x y : PyKey} {a2 : Assign α}
    (h : revise csp assign x y = some (a2, false)) : a2 = assign := by
  cases x with
  | pair u w => rw [revise] at h; exact absurd h (by simp)
  | name si =>
    cases y with
    | name sj =>
      rw [revise] at h
      exact (reviseLoop_false h).1
    | pair u w =>
      rw [revise] at h
      rcases hdg : dictGet si assign with _ | di
      · rw [hdg] at h
        exact absurd h (by simp)
      · rw [hdg] at h
        by_cases he : di.isEmpty
        · simp [he] at h
          exact h.symm
        · simp [he] at h

theorem revise_true_lt {α : Type} [DecidableEq α] {csp : CSP α} {assign : Assign α}
    {x y : PyKey} {a2 : Assign α}
    (h : revise csp assign x y = some (a2, true)) :
    totalSize a2 < totalSize assign := by
  cases x with
  | pair u w => rw [revise] at h; exact absurd h (by simp)
  | name si =>
    cases y with
    | name sj =>
      rw [revise] at h
      exact (reviseLoop_size h).2 rfl rfl
    | pair u w =>
      rw [revise] at h
      rcases hdg : dictGet si assign with _ | di
      · rw [hdg] at h
        exact absurd h (by simp)
      · rw [hdg] at h
        by_cases he : di.isEmpty
        · simp [he] at h
        · simp [he] at h

/-- The worklist loop of `CSP.inference` (lines 150-161).  In Python
`q = queue` aliases the caller's list, `counter` walks it, and
`q.append(...)` grows it while the loop runs; the embedding returns the final
assignment/worklist states next to the boolean result, `none` in the first
component standing for an uncaught exception (`KeyError`).  Lines 158-160 are
modelled verbatim: `neighbour` is a whole pair `(k, x)` produced by
`get_all_neighboring_arcs`, it is compared against the *name* `y` (a tuple
never equals a name) and the entry appended to the worklist is
`((k, x), x)`. -/
def inferenceLoop {α : Type} [DecidableEq α] (csp : CSP α) (assign : Assign α)
    (q : List (PyKey × PyKey)) (counter : Nat) :
    Option (Assign α × Bool) × List (PyKey × PyKey) :=
  if hc : counter < q.length then
    match hr : revise csp assign (q[counter]).1 (q[counter]).2 with
    | none => (none, q)
    | some (a2, revised) =>
      if hrev : revised then
        match (q[counter]).1 with
        | .pair _ _ => (none, q)
        | .name sx =>
          match dictGet sx a2 with
          | none => (none, q)
          | some dx =>
            if dx.length = 0 then (some (a2, false), q)
            else
              match get_all_neighboring_arcs csp sx with
              | none => (none, q)
              | some nbrs =>
                inferenceLoop csp a2
                  (q ++ (nbrs.filter (fun nb =>
                      decide (PyKey.pair (PyKey.name nb.1) (PyKey.name nb.2) ≠ (q[counter]).2))).map
                    (fun nb => (PyKey.pair (PyKey.name nb.1) (PyKey.name nb.2), (q[counter]).1)))
                  (counter + 1)
      else
        inferenceLoop csp a2 q (counter + 1)
  else
    (some (assign, true), q)
termination_by (totalSize assign, q.length - counter)
decreasing_by
· exact Prod.Lex.left _ _ (revise_true_lt (hrev ▸ hr))
· have hf : revised = false := by
    revert hrev
    cases revised <;> simp
  have he : a2 = assign := revise_false_eq (hf ▸ hr)
  rw [he]
  exact Prod.Lex.right _ (by omega)

/-- `CSP.inference` (lines 144-161): run the worklist loop with `q = queue`
and `counter = 0`. -/
def inference {α : Type} [DecidableEq α] (csp : CSP α) (assign : Assign α)
    (queue : List (PyKey × PyKey)) :
    Option (Assign α × Bool) × List (PyKey × PyKey) :=
  inferenceLoop csp assign queue 0

/-- The worklist `backtracking_search` and `backtrack` build from
`self.get_all_arcs()`: a Python list of name pairs, injected into the
queue-entry type. -/
def toQueue (arcs : List (String × String)) : List (PyKey × PyKey) :=
  arcs.map (fun a => (PyKey.name a.1, PyKey.name a.2))

theorem inferenceLoop_shrinks {α : Type} [DecidableEq α] {csp : CSP α} :
    ∀ {assign : Assign α} {q : List (PyKey × PyKey)} {counter : Nat}
      {a3 : Assign α} {b : Bool} {qf : List (PyKey × PyKey)},
    inferenceLoop csp assign q counter = (some (a3, b), qf) → Shrinks a3 assign := by
  intro assign q counter
  induction assign, q, counter using inferenceLoop.induct csp with
  | case1 assign q counter hlt hr =>
    intro a3 b qf h2
    rw [inferenceLoop] at h2
    simp only [hlt, reduceDIte] at h2
    rw [hr] at h2
    exact absurd h2 (by simp)
  | case2 assign q counter hlt a2 u w hx hr =>
    intro a3 b qf h2
    rw [inferenceLoop] at h2
    simp only [hlt, reduceDIte] at h2
    rw [hr] at h2
    simp only [hx] at h2
    exact absurd h2 (by simp)
  | case3 assign q counter hlt a2 sx hx hget hr =>
    intro a3 b qf h2
    rw [inferenceLoop] at h2
    simp only [hlt, reduceDIte] at h2
    rw [hr] at h2
    simp only [hx, hget] at h2
    exact absurd h2 (by simp)
  | case4 assign q counter hlt a2 sx hx dj hget hlen hr =>
    intro a3 b qf h2
    rw [inferenceLoop] at h2
    simp only [hlt, reduceDIte] at h2
    rw [hr] at h2
    simp only [hx, hget, hlen, if_true, dite_true] at h2
    injection h2 with h3 h4
    injection h3 with h5
    injection h5 with h6 h7
    subst h6
    exact revise_shrinks hr
  | case5 assign q counter hlt a2 sx hx dj hget hlen hnb hr =>
    intro a3 b qf h2
    rw [inferenceLoop] at h2
    simp only [hlt, reduceDIte] at h2
    rw [hr] at h2
    simp only [hx, hget, hlen, if_false, hnb] at h2
    exact absurd h2 (by simp)
  | case6 assign q counter hlt a2 sx hx dj hget hlen nbrs hnb hr =>
    rename_i ih
    intro a3 b qf h2
    rw [inferenceLoop] at h2
    simp only [hlt, reduceDIte] at h2
    rw [hr] at h2
    rw [hx] at ih
    simp only [hx, hget, hlen, if_false, hnb, dite_true] at h2
    exact shrinks_trans (ih h2) (revise_shrinks hr)
  | case7 assign q counter hlt a2 revised hr hnrev =>
    rename_i ih
    intro a3 b qf h2
    have hf : revised = false := by
      revert hnrev
      cases revised <;> simp
    subst hf
    rw [inferenceLoop] at h2
    simp only [hlt, reduceDIte] at h2
    rw [hr] at h2
    simp only [Bool.false_eq_true, if_false] at h2
    have he : a2 = assign := revise_false_eq hr
    subst he
    exact ih h2
  | case8 assign q counter hlt =>
    intro a3 b qf h2
    rw [inferenceLoop] at h2
    simp only [hlt, reduceDIte] at h2
    injection h2 with h3 h4
    injection h3 with h5
    injection h5 with h6 h7
    subst h6
    exact shrinks_refl _

theorem inference_shrinks {α : Type} [DecidableEq α] {csp : CSP α}
    {assign : Assign α} {queue qf : List (PyKey × PyKey)} {a2 : Assign α} {b : Bool}
    (h : inference csp assign queue = (some (a2, b), qf)) : Shrinks a2 assign := by
  rw [inference] at h
  exact inferenceLoop_shrinks h

theorem inference_ts_le {α : Type} [DecidableEq α] {csp : CSP α}
    {assign : Assign α} {queue qf : List (PyKey × PyKey)} {a2 : Assign α} {b : Bool}
    (h : inference csp assign queue = (some (a2, b), qf)) :
    totalSize a2 ≤ totalSize assign :=
  shrinks_totalSize_le (inference_shrinks h)

/-- `CSP.assignmentIsComplete` (lines 87-91).  In the source the loop variable
ranges over the *keys* of the assignment dictionary, so `len(variable) > 1`
tests the length of the variable's name string, not of its domain. -/
def assignmentIsComplete {α : Type} (assign : Assign α) : Bool :=
  assign.all (fun p => ! decide (1 < p.1.length))

/-- `CSP.select_unassigned_variable` (lines 132-141): return the first
variable in dictionary iteration order whose list of legal values has more
than one element, `None` (modelled `none`) when every domain has at most one
value. -/
def select_unassigned_variable {α : Type} (assign : Assign α) : Option String :=
  (assign.map Prod.fst).find? (fun u => decide (1 < ((dictGet u assign).getD []).length))

theorem select_spec {α : Type} {assign : Assign α} {v : String}
    (h : select_unassigned_variable assign = some v) :
    ∃ d, dictGet v assign = some d ∧ 1 < d.length := by
  have hp := List.find?_some h
  rcases hdg : dictGet v assign with _ | d
  · rw [hdg] at hp
    simp at hp
  · rw [hdg] at hp
    simp at hp
    exact ⟨d, rfl, hp⟩

/-- The value `backtrack` returns to its caller: a solution dictionary, the
implicit `None` of the bare `return` on line 129, or an uncaught exception
(e.g. `assignment[None]` when `select_unassigned_variable` found nothing). -/
inductive BTRes (α : Type) where
  | sol : Assign α → BTRes α
  | fail : BTRes α
  | crash : BTRes α

deriving instance DecidableEq for BTRes

mutual

/-- `CSP.backtrack` (lines 93-129).  Terminal check via
`assignmentIsComplete`; otherwise pick a variable and run the value loop over
`assignment[unassignedVar]`.  When `select_unassigned_variable` returns
`None`, the subscript `assignment[None]` of line 122 raises (`crash`).
The propositional argument handed to `tryValues` only carries the fact
recorded by `select_spec` and is erased at run time. -/
def backtrack {α : Type} [DecidableEq α] (csp : CSP α) (assign : Assign α) :
    BTRes α :=
  if assignmentIsComplete assign then .sol assign
  else
    match hs : select_unassigned_variable assign with
    | none => .crash
    | some uvar =>
      tryValues csp assign uvar (select_spec hs) ((dictGet uvar assign).getD [])
termination_by (totalSize assign, totalSize assign + 1)
decreasing_by
  obtain ⟨d, hd, hlen⟩ := select_spec hs
  rw [hd]
  have := dictGet_length_le_totalSize hd
  exact Prod.Lex.right _ (by simp; omega)

/-- The `for value in assignment[unassignedVar]` loop of `backtrack`
(lines 122-128): deep-copy the assignment, overwrite the chosen variable's
domain with the singleton `[value]`, run `inference` seeded with all arcs,
recurse on success, and fall through to the next value otherwise.  Python's
`if result:` treats both `None` and an *empty* returned dictionary as false,
hence the `s.isEmpty` test. -/
def tryValues {α : Type} [DecidableEq α] (csp : CSP α) (assign : Assign α)
    (uvar : String) (hu : ∃ d, dictGet uvar assign = some d ∧ 1 < d.length) :
    List α → BTRes α
  | [] => .fail
  | v :: vs =>
    match hinf : inference csp (dictSet uvar [v] assign) (toQueue (get_all_arcs csp)) with
    | (none, _) => .crash
    | (some (a2, ok), _) =>
      if ok then
        match backtrack csp a2 with
        | .crash => .crash
        | .fail => tryValues csp assign uvar hu vs
        | .sol s => if s.isEmpty then tryValues csp assign uvar hu vs else .sol s
      else
        tryValues csp assign uvar hu vs
termination_by l => (totalSize assign, l.length)
decreasing_by
all_goals first
| · obtain ⟨d, hd, hlen⟩ := hu
    have h1 := inference_ts_le hinf
    have h2 := totalSize_dictSet hd [v]
    simp at h2
    exact Prod.Lex.left _ _ (by omega)
| exact Prod.Lex.right _ (by simp)

end

/-- `CSP.backtracking_search` (lines 70-85): deep-copy `self.domains`, run
`inference` on it seeded with every arc — *discarding its boolean result* —
and hand the propagated copy to `backtrack`. -/
def backtracking_search {α : Type} [DecidableEq α] (csp : CSP α) : BTRes α :=
  match inference csp csp.domains (toQueue (get_all_arcs csp)) with
  | (none, _) => .crash
  | (some (a2, _), _) => backtrack csp a2

/-- Every endpoint of a registered arc is a key of the snapshot (built-in for
assignments that are copies of `self.domains` of a well-formed store). -/
def allArcsKeyed {α : Type} (csp : CSP α) (assign : Assign α) : Prop :=
  ∀ a ∈ get_all_arcs csp, (dictGet a.1 assign).isSome ∧ (dictGet a.2 assign).isSome

/-- Arc-consistency of a snapshot: along every registered arc `(i, j)`, every
value in domain(i) has a supporting partner in domain(j) permitted by
`constraints[i][j]`. -/
def arcConsistent {α : Type} [DecidableEq α] (csp : CSP α) (assign : Assign α) : Prop :=
  ∀ a ∈ get_all_arcs csp, ∀ v ∈ (dictGet a.1 assign).getD [],
    ∃ w ∈ (dictGet a.2 assign).getD [], (v, w) ∈ (consLookup csp a.1 a.2).getD []

theorem dictGet_isSome_of_mem {β : Type} {l : List (String × β)} {p : String × β}
    (h : p ∈ l) : (dictGet p.1 l).isSome := by
  induction l with
  | nil => cases h
  | cons a rest ih =>
    rw [dictGet]
    by_cases ha : a.1 = p.1
    · simp [ha]
    · rcases List.mem_cons.mp h with he | ht
      · exact absurd (he ▸ rfl) ha
      · simp [ha, ih ht]

theorem mem_get_all_arcs {α : Type} {csp : CSP α} {i j : String}
    (h : (i, j) ∈ get_all_arcs csp) :
    ∃ row, dictGet i csp.constraints = some row ∧ ∃ cs, (j, cs) ∈ row := by
  rw [get_all_arcs] at h
  rw [List.mem_flatten] at h
  obtain ⟨inner, hinner, hmem⟩ := h
  rw [List.mem_map] at hinner
  obtain ⟨p, hp, hip⟩ := hinner
  subst hip
  rw [List.mem_map] at hmem
  obtain ⟨c, hc, hpc⟩ := hmem
  obtain ⟨h1, h2⟩ := Prod.mk.injEq .. ▸ hpc
  rcases hrow : dictGet p.1 csp.constraints with _ | row
  · rw [hrow] at hc
    cases hc
  · rw [hrow] at hc
    rw [← h1, hrow]
    exact ⟨row, rfl, c.2, by rw [← h2]; exact hc⟩

theorem consLookup_isSome_of_arc {α : Type} {csp : CSP α} {i j : String}
    (h : (i, j) ∈ get_all_arcs csp) : (consLookup csp i j).isSome := by
  obtain ⟨row, hrow, cs, hcs⟩ := mem_get_all_arcs h
  rw [consLookup, hrow]
  simpa using dictGet_isSome_of_mem hcs

theorem reviseLoop_noop {α : Type} [DecidableEq α] {csp : CSP α} {i j : String}
    {assign : Assign α} {di dj : List α}
    (hdi : dictGet i assign = some di) (hdj : dictGet j assign = some dj)
    (hsupp : ∀ v ∈ di, ∃ w ∈ dj, (v, w) ∈ (consLookup csp i j).getD []) :
    ∀ k r, reviseLoop csp i j assign k r = some (assign, r) := by
  have main : ∀ n k r, di.length - k ≤ n → reviseLoop csp i j assign k r = some (assign, r) := by
    intro n
    induction n with
    | zero =>
      intro k r hle
      have hnk : ¬ k < di.length := by omega
      rw [reviseLoop, hdi]
      simp only [hnk, reduceDIte]
    | succ n ihn =>
      intro k r hle
      by_cases hk : k < di.length
      · have hv : di[k] ∈ di := List.getElem_mem hk
        obtain ⟨w, hw, hvw⟩ := hsupp di[k] hv
        rcases hcons : consLookup csp i j with _ | cs
        · rw [hcons] at hvw
          cases hvw
        · rw [hcons] at hvw
          simp only [Option.getD_some] at hvw
          have hne : ¬ dj.isEmpty = true := by
            simp only [List.isEmpty_iff]
            exact List.ne_nil_of_mem hw
          have hany : dj.any (fun w2 => decide ((di[k], w2) ∈ cs)) = true :=
            List.any_eq_true.mpr ⟨w, hw, by simp only [decide_eq_true_eq]; exact hvw⟩
          rw [reviseLoop, hdi]
          simp only [hk, reduceDIte, hdj, hne, if_false, hcons, hany, if_true]
          exact ihn (k + 1) r (by omega)
      · rw [reviseLoop, hdi]
        simp only [hk, reduceDIte]
  intro k r
  exact main (di.length - k) k r (Nat.le_refl _)

theorem revise_noop {α : Type} [DecidableEq α] {csp : CSP α} {assign : Assign α}
    {i j : String} (harc : (i, j) ∈ get_all_arcs csp)
    (hkeys : allArcsKeyed csp assign) (hac : arcConsistent csp assign) :
    revise csp assign (PyKey.name i) (PyKey.name j) = some (assign, false) := by
  obtain ⟨hki, hkj⟩ := hkeys (i, j) harc
  rcases hdi : dictGet i assign with _ | di
  · rw [hdi] at hki
    cases hki
  rcases hdj : dictGet j assign with _ | dj
  · rw [hdj] at hkj
    cases hkj
  have hsupp : ∀ v ∈ di, ∃ w ∈ dj, (v, w) ∈ (consLookup csp i j).getD [] := by
    intro v hv
    have := hac (i, j) harc v (by rw [hdi]; simpa using hv)
    simpa [hdj] using this
  rw [revise]
  exact reviseLoop_noop hdi hdj hsupp 0 false

theorem inferenceLoop_consistent {α : Type} [DecidableEq α] {csp : CSP α}
    {assign : Assign α} {q : List (PyKey × PyKey)}
    (hgood : ∀ e ∈ q, ∃ i j, e = (PyKey.name i, PyKey.name j) ∧ (i, j) ∈ get_all_arcs csp)
    (hkeys : allArcsKeyed csp assign) (hac : arcConsistent csp assign) :
    ∀ counter, inferenceLoop csp assign q counter = (some (assign, true), q) := by
  have main : ∀ n counter, q.length - counter ≤ n →
      inferenceLoop csp assign q counter = (some (assign, true), q) := by
    intro n
    induction n with
    | zero =>
      intro counter hle
      rw [inferenceLoop]
      rw [dif_neg (by omega)]
    | succ n ihn =>
      intro counter hle
      by_cases hc : counter < q.length
      · obtain ⟨i, j, he, harc⟩ := hgood q[counter] (List.getElem_mem hc)
        have hrev : revise csp assign (q[counter]).1 (q[counter]).2 = some (assign, false) := by
          rw [he]
          exact revise_noop harc hkeys hac
        rw [inferenceLoop]
        rw [dif_pos hc]
        rw [hrev]
        simp only [Bool.false_eq_true, dite_false]
        exact ihn (counter + 1) (by omega)
      · rw [inferenceLoop]
        rw [dif_neg hc]
  intro counter
  exact main (q.length - counter) counter (Nat.le_refl _)

theorem tryValues_backtrack_mono {α : Type} [DecidableEq α] :
    ∀ (n : Nat) (csp : CSP α) (assign : Assign α), totalSize assign ≤ n →
    (∀ (uvar : String) (hu : ∃ d, dictGet uvar assign = some d ∧ 1 < d.length)
       (l : List α), (∀ v ∈ l, v ∈ (dictGet uvar assign).getD []) →
       ∀ s, tryValues csp assign uvar hu l = BTRes.sol s → Shrinks s assign) ∧
    (∀ s, backtrack csp assign = BTRes.sol s → Shrinks s assign) := by
  intro n
  induction n with
  | zero =>
    intro csp assign hts
    have T : ∀ (uvar : String) (hu : ∃ d, dictGet uvar assign = some d ∧ 1 < d.length)
        (l : List α), (∀ v ∈ l, v ∈ (dictGet uvar assign).getD []) →
        ∀ s, tryValues csp assign uvar hu l = BTRes.sol s → Shrinks s assign := by
      intro uvar hu l hl s h
      obtain ⟨d, hd, hlen⟩ := hu
      have := dictGet_length_le_totalSize hd
      omega
    refine ⟨T, ?_⟩
    intro s h
    rw [backtrack] at h
    by_cases hcomp : assignmentIsComplete assign
    · rw [if_pos hcomp] at h
      cases h
      exact shrinks_refl assign
    · rw [if_neg hcomp] at h
      split at h
      · exact absurd h (by simp)
      · rename_i uvar hsel
        exact T uvar (select_spec hsel) _ (fun v hv => hv) s h
  | succ n ihn =>
    intro csp assign hts
    have T : ∀ (uvar : String) (hu : ∃ d, dictGet uvar assign = some d ∧ 1 < d.length)
        (l : List α), (∀ v ∈ l, v ∈ (dictGet uvar assign).getD []) →
        ∀ s, tryValues csp assign uvar hu l = BTRes.sol s → Shrinks s assign := by
      intro uvar hu l
      induction l with
      | nil =>
        intro hl s h
        rw [tryValues] at h
        exact absurd h (by simp)
      | cons v vs ihl =>
        intro hl s h
        obtain ⟨d, hd, hlen⟩ := hu
        have hvd : v ∈ d := by
          have := hl v (List.mem_cons_self v vs)
          rw [hd] at this
          simpa using this
        have hshr0 : Shrinks (dictSet uvar [v] assign) assign :=
          dictSet_shrinks hd (List.singleton_sublist.mpr hvd)
        rw [tryValues] at h
        rcases hinf : inference csp (dictSet uvar [v] assign) (toQueue (get_all_arcs csp))
          with ⟨o, qf⟩
        rw [hinf] at h
        rcases o with _ | ⟨a2, ok⟩
        · exact absurd h (by simp)
        · have hshr1 : Shrinks a2 (dictSet uvar [v] assign) := inference_shrinks hinf
          have hts2 : totalSize a2 ≤ n := by
            have h1 := shrinks_totalSize_le hshr1
            have h2 := totalSize_dictSet hd [v]
            simp only [List.length_cons, List.length_nil] at h2
            omega
          by_cases hok : ok = true
          · subst hok
            simp only [if_true] at h
            split at h
            · exact absurd h (by simp)
            · exact ihl (fun u hu2 => hl u (List.mem_cons_of_mem v hu2)) s h
            · rename_i s2 hbt
              by_cases hemp : s2.isEmpty
              · rw [if_pos hemp] at h
                exact ihl (fun u hu2 => hl u (List.mem_cons_of_mem v hu2)) s h
              · rw [if_neg hemp] at h
                cases h
                exact shrinks_trans (shrinks_trans ((ihn csp a2 hts2).2 s hbt) hshr1) hshr0
          · have hok2 : ok = false := by
              revert hok
              cases ok <;> simp
            subst hok2
            simp only [Bool.false_eq_true, if_false] at h
            exact ihl (fun u hu2 => hl u (List.mem_cons_of_mem v hu2)) s h
    refine ⟨T, ?_⟩
    intro s h
    rw [backtrack] at h
    by_cases hcomp : assignmentIsComplete assign
    · rw [if_pos hcomp] at h
      cases h
      exact shrinks_refl assign
    · rw [if_neg hcomp] at h
      split at h
      · exact absurd h (by simp)
      · rename_i uvar hsel
        exact T uvar (select_spec hsel) _ (fun v hv => hv) s h

theorem backtrack_shrinks {α : Type} [DecidableEq α] {csp : CSP α}
    {assign : Assign α} {s : Assign α}
    (h : backtrack csp assign = BTRes.sol s) : Shrinks s assign :=
  (tryValues_backtrack_mono (totalSize assign) csp assign (Nat.le_refl _)).2 s h

theorem inferenceLoop_step_none {α : Type} [DecidableEq α] (csp : CSP α)
    (assign : Assign α) (q : List (PyKey × PyKey)) (counter : Nat)
    (hc : counter < q.length)
    (hr : revise csp assign (q[counter]).1 (q[counter]).2 = none) :
    inferenceLoop csp assign q counter = (none, q) := by
  rw [inferenceLoop]
  rw [dif_pos hc]
  rw [hr]

theorem inferenceLoop_step_empty {α : Type} [DecidableEq α] (csp : CSP α)
    (assign a2 : Assign α) (q : List (PyKey × PyKey)) (counter : Nat) (sx : String)
    (hc : counter < q.length)
    (hr : revise csp assign (q[counter]).1 (q[counter]).2 = some (a2, true))
    (hx : (q[counter]).1 = PyKey.name sx)
    (hdx : dictGet sx a2 = some []) :
    inferenceLoop csp assign q counter = (some (a2, false), q) := by
  rw [inferenceLoop]
  rw [dif_pos hc]
  rw [hr]
  simp [hx, hdx]

theorem inferenceLoop_step_enqueue {α : Type} [DecidableEq α] (csp : CSP α)
    (assign a2 : Assign α) (q : List (PyKey × PyKey)) (counter : Nat) (sx : String)
    (dx : List α) (nbrs : List (String × String))
    (hc : counter < q.length)
    (hr : revise csp assign (q[counter]).1 (q[counter]).2 = some (a2, true))
    (hx : (q[counter]).1 = PyKey.name sx)
    (hdx : dictGet sx a2 = some dx) (hne : dx.length ≠ 0)
    (hnb : get_all_neighboring_arcs csp sx = some nbrs) :
    inferenceLoop csp assign q counter =
      inferenceLoop csp a2
        (q ++ (nbrs.filter (fun nb =>
            decide (PyKey.pair (PyKey.name nb.1) (PyKey.name nb.2) ≠ (q[counter]).2))).map
          (fun nb => (PyKey.pair (PyKey.name nb.1) (PyKey.name nb.2), (q[counter]).1)))
        (counter + 1) := by
  rw [inferenceLoop]
  rw [dif_pos hc]
  rw [hr]
  simp [hx, hdx, hne, hnb]

theorem inferenceLoop_step_done {α : Type} [DecidableEq α] (csp : CSP α)
    (assign : Assign α) (q : List (PyKey × PyKey)) (counter : Nat)
    (hc : ¬ counter < q.length) :
    inferenceLoop csp assign q counter = (some (assign, true), q) := by
  rw [inferenceLoop]
  rw [dif_neg hc]

theorem find?_first_spec {L : List String} {p : String → Bool} {v : String}
    (h : L.find? p = some v) :
    p v = true ∧ ∃ l1 l2, L = l1 ++ v :: l2 ∧ ∀ u ∈ l1, p u = false := by
  induction L with
  | nil => simp [List.find?] at h
  | cons a L ih =>
    by_cases hpa : p a = true
    · rw [List.find?] at h
      rw [hpa] at h
      have h2 : some a = some v := h
      cases h2
      exact ⟨hpa, [], L, rfl, by simp⟩
    · have hfa : p a = false := by
        revert hpa
        cases p a <;> simp
      rw [List.find?] at h
      rw [hfa] at h
      have h2 : List.find? p L = some v := h
      obtain ⟨hp, l1, l2, hL, hprev⟩ := ih h2
      refine ⟨hp, a :: l1, l2, by simp [hL], ?_⟩
      intro u hu
      rcases List.mem_cons.mp hu with he | ht
      · subst he
        simpa using hpa
      · exact hprev u ht

/-- The two-variable store of the C1 counterexample: one-character variable
names, two candidate values each, no constraints registered. -/
def cspC1 : CSP Nat := ⟨["a", "b"], [("a", [1, 2]), ("b", [1, 2])], [("a", []), ("b", [])]⟩

/-- C1: the claim says a returned (non-failure) result of
`backtracking_search` assigns exactly one value per variable and satisfies
every registered constraint.  The code violates it: `assignmentIsComplete`
tests `len(variable)`, the length of the variable's *name*, instead of
`len(assignment[variable])`, so on a store whose variable names are single
characters the very first `backtrack` call returns the untouched assignment
even though both domains still hold two candidates. -/
theorem C1_search_returns_incomplete_assignment :
    backtracking_search cspC1 = BTRes.sol [("a", [1, 2]), ("b", [1, 2])] ∧
    ([("a", [1, 2]), ("b", [1, 2])] : Assign Nat).all
      (fun p => decide (p.2.length = 1)) = false := by
  constructor
  · simp +decide [backtracking_search, inference, inferenceLoop, backtrack, tryValues,
      assignmentIsComplete, select_unassigned_variable, dictGet, dictSet, revise,
      reviseLoop, consLookup, get_all_arcs, get_all_neighboring_arcs, toQueue, cspC1]
  · decide

/-- The store of the C2 counterexample: one variable whose name has two
characters and whose domain is the singleton `[1]`. -/
def cspC2 : CSP Nat := ⟨["ab"], [("ab", [1])], [("ab", [])]⟩

/-- C2: the claim says `backtrack` returns an all-singleton assignment
immediately.  Because `assignmentIsComplete` measures the *name* `"ab"`
(length 2 > 1) instead of the domain, the code judges this solved assignment
incomplete, `select_unassigned_variable` then finds no domain larger than one
and returns `None`, and line 122 evaluates `assignment[None]` — an uncaught
`KeyError` (`crash`), not the immediate return the claim requires. -/
theorem C2_singleton_assignment_crashes :
    ([("ab", [1])] : Assign Nat).all (fun p => decide (p.2.length = 1)) = true ∧
    backtrack cspC2 [("ab", [1])] = BTRes.crash := by
  constructor
  · decide
  · simp +decide [backtrack, tryValues, assignmentIsComplete,
      select_unassigned_variable, dictGet, cspC2]

/-- The store of the C3 counterexample: revising the arc (a, b) removes the
unsupported value 1 from domain(a) without emptying it, and a has the two
neighbours b and c in its constraint row. -/
def cspC3 : CSP Nat :=
  ⟨["a", "b", "c"], [("a", [1, 2]), ("b", [2]), ("c", [1])],
    [("a", [("b", [(2, 2)]), ("c", [(1, 1), (2, 1)])]), ("b", []), ("c", [])]⟩

/-- C3: the claim says that after a non-emptying revision of domain(i) the
engine appends exactly the name-pair arcs `(k, i)` for the neighbours `k` of
`i`, skipping the arc `(j, i)` pointing back at the just-checked variable.
The code instead appends `((k, i), i)` — `neighbour` is already the whole
pair returned by `get_all_neighboring_arcs` — and the guard
`neighbour != y` compares that pair with the name `y`, which are never equal,
so the back arc `(b, a)` is enqueued too.  Destructuring such a malformed
entry then feeds a pair into `assignment[x]`, an uncaught `KeyError`:
`inference` crashes (first component `none`) and the final worklist holds the
two nested-pair entries, the back arc included. -/
theorem C3_enqueues_malformed_and_back_arc :
    inference cspC3 [("a", [1, 2]), ("b", [2]), ("c", [1])]
        [(PyKey.name "a", PyKey.name "b")] =
      (none,
        [(PyKey.name "a", PyKey.name "b"),
         (PyKey.pair (PyKey.name "b") (PyKey.name "a"), PyKey.name "a"),
         (PyKey.pair (PyKey.name "c") (PyKey.name "a"), PyKey.name "a")]) := by
  have h1 : revise cspC3 [("a", [1, 2]), ("b", [2]), ("c", [1])]
      (PyKey.name "a") (PyKey.name "b")
      = some ([("a", [2]), ("b", [2]), ("c", [1])], true) := by
    simp +decide [revise, reviseLoop, dictGet, dictSet, consLookup, cspC3]
  have h2 : inferenceLoop cspC3 [("a", [2]), ("b", [2]), ("c", [1])]
      [(PyKey.name "a", PyKey.name "b"),
       (PyKey.pair (PyKey.name "b") (PyKey.name "a"), PyKey.name "a"),
       (PyKey.pair (PyKey.name "c") (PyKey.name "a"), PyKey.name "a")] 1 =
      (none,
       [(PyKey.name "a", PyKey.name "b"),
        (PyKey.pair (PyKey.name "b") (PyKey.name "a"), PyKey.name "a"),
        (PyKey.pair (PyKey.name "c") (PyKey.name "a"), PyKey.name "a")]) :=
    inferenceLoop_step_none cspC3 [("a", [2]), ("b", [2]), ("c", [1])]
      [(PyKey.name "a", PyKey.name "b"),
       (PyKey.pair (PyKey.name "b") (PyKey.name "a"), PyKey.name "a"),
       (PyKey.pair (PyKey.name "c") (PyKey.name "a"), PyKey.name "a")] 1
      (by decide) rfl
  rw [inference]
  rw [inferenceLoop_step_enqueue cspC3 [("a", [1, 2]), ("b", [2]), ("c", [1])]
      [("a", [2]), ("b", [2]), ("c", [1])] [(PyKey.name "a", PyKey.name "b")] 0
      "a" [2] [("b", "a"), ("c", "a")] (by decide) h1 rfl rfl (by decide) rfl]
  convert h2 using 2

/-- The store of the C4 counterexample: the registered constraint (a, b)
permits no value pair at all, and domain(a) holds the two values 1, 2. -/
def cspC4 : CSP Nat :=
  ⟨["a", "b"], [("a", [1, 2]), ("b", [3])],
    [("a", [("b", ([] : List (Nat × Nat)))]), ("b", [])]⟩

/-- C4: the claim says `revise(assignment, i, j)` leaves in domain(i) exactly
the supported values, removing every unsupported one.  The code removes
elements of `assignment[i]` *while iterating over it*: deleting the value at
the iterator's position shifts the next value into that slot and the iterator
skips it.  Here both values 1 and 2 of domain(a) are unsupported (the
constraint permits nothing), yet after `revise` the domain still holds `[2]`
— 2 was skipped — while the claim demands the empty domain. -/
theorem C4_revise_skips_unsupported :
    revise cspC4 [("a", [1, 2]), ("b", [3])] (PyKey.name "a") (PyKey.name "b") =
      some ([("a", [2]), ("b", [3])], true) ∧
    ([3] : List Nat).all (fun w => decide ((2, w) ∉ ([] : List (Nat × Nat)))) = true := by
  constructor
  · simp +decide [revise, reviseLoop, dictGet, dictSet, consLookup, cspC4]
  · decide

/-- The assignment of the C5 counterexample: iteration order gives "a"
(domain size 3) before "b" (domain size 2); both are undecided. -/
def assignC5 : Assign Nat := [("a", [1, 2, 3]), ("b", [1, 2])]

/-- C5 counterexample: the claim (minimum-remaining-values) demands the
undecided variable with the *smallest* domain, here "b" with 2 < 3
candidates; the code returns "a", the first undecided variable in iteration
order. -/
theorem C5_select_not_mrv :
    select_unassigned_variable assignC5 = some "a" ∧
    ((dictGet "a" assignC5).getD []).length = 3 ∧
    ((dictGet "b" assignC5).getD []).length = 2 := by decide

/-- C5 as amended: `select_unassigned_variable` returns the *first* variable
in the assignment's iteration order whose domain has more than one value
(every earlier variable's domain has at most one) — first-found selection,
not the minimum-remaining-values choice the claim states. -/
theorem C5_select_first_undecided {α : Type} (assign : Assign α) (v : String)
    (h : select_unassigned_variable assign = some v) :
    1 < ((dictGet v assign).getD []).length ∧
    ∃ l1 l2, assign.map Prod.fst = l1 ++ v :: l2 ∧
      ∀ u ∈ l1, ((dictGet u assign).getD []).length ≤ 1 := by
  rw [select_unassigned_variable] at h
  obtain ⟨hp, l1, l2, hL, hprev⟩ := find?_first_spec h
  refine ⟨by simpa using hp, l1, l2, hL, fun u hu => ?_⟩
  have := hprev u hu
  simp at this
  omega

theorem C5_select_first_undecided_witness :
    1 < ((dictGet "a" assignC5).getD []).length ∧
    ∃ l1 l2, assignC5.map Prod.fst = l1 ++ "a" :: l2 ∧
      ∀ u ∈ l1, ((dictGet u assignC5).getD []).length ≤ 1 :=
  C5_select_first_undecided assignC5 "a" (by decide)

/-- The store of the C6 counterexample: two singleton domains and one
registered arc (a, b) that permits no value pair, so the very first
propagation empties domain(a). -/
def cspC6 : CSP Nat :=
  ⟨["a", "b"], [("a", [1]), ("b", [1])],
    [("a", [("b", ([] : List (Nat × Nat)))]), ("b", [])]⟩

/-- C6: the claim says that when the initial propagation empties a domain,
`backtracking_search` returns the failure indicator without branching.  The
code ignores the boolean returned by `inference` (line 82) and calls
`backtrack` on the gutted assignment anyway; with one-character variable
names `assignmentIsComplete` then declares it complete, and the search
returns a purported *solution* containing an empty domain instead of the
failure indicator. -/
theorem C6_root_contradiction_not_failure :
    (inference cspC6 cspC6.domains (toQueue (get_all_arcs cspC6))).1 =
      some ([("a", []), ("b", [1])], false) ∧
    backtracking_search cspC6 = BTRes.sol [("a", []), ("b", [1])] := by
  have hrev : revise cspC6 [("a", [1]), ("b", [1])] (PyKey.name "a") (PyKey.name "b")
      = some ([("a", []), ("b", [1])], true) := by
    simp +decide [revise, reviseLoop, dictGet, dictSet, consLookup, cspC6]
  have hi : inference cspC6 cspC6.domains (toQueue (get_all_arcs cspC6)) =
      (some ([("a", []), ("b", [1])], false), toQueue (get_all_arcs cspC6)) := by
    rw [inference]
    exact inferenceLoop_step_empty cspC6 cspC6.domains [("a", []), ("b", [1])]
      (toQueue (get_all_arcs cspC6)) 0 "a" (by decide) hrev rfl rfl
  constructor
  · rw [hi]
  · rw [backtracking_search]
    rw [hi]
    simp +decide [backtrack, assignmentIsComplete]

/-- The store of the C7 counterexample: the constraint is registered in one
direction only, from a at b. -/
def cspC7 : CSP Nat :=
  ⟨["a", "b"], [("a", [1]), ("b", [1])], [("a", [("b", [(1, 1)])]), ("b", [])]⟩

/-- C7 counterexample: the claim says `get_all_neighboring_arcs(v)` returns
exactly the pairs `(i, v)` with a constraint registered *from i at v*.  With
the one-way store `cspC7` the constraint (a, b) is registered, yet the call
for "b" returns the empty list; conversely the call for "a" returns
`("b", "a")` although no constraint (b, a) exists.  The function actually
enumerates the *outgoing* row of its argument. -/
theorem C7_neighboring_arcs_not_incoming :
    consLookup cspC7 "a" "b" = some [(1, 1)] ∧
    get_all_neighboring_arcs cspC7 "b" = some [] ∧
    get_all_neighboring_arcs cspC7 "a" = some [("b", "a")] ∧
    consLookup cspC7 "b" "a" = none := by decide

/-- C7 as amended: `get_all_neighboring_arcs(v)` returns the pairs `(j, v)`
for exactly those `j` such that the store holds a constraint for the ordered
pair `(v, j)` — it reads the row of constraints registered *from* `v`, not
the arcs directed at `v`; the two coincide only when every constraint is
registered in both directions. -/
theorem C7_neighboring_arcs_outgoing {α : Type} (csp : CSP α) (v : String)
    (row : List (String × List (α × α)))
    (hrow : dictGet v csp.constraints = some row) (i w : String) :
    (i, w) ∈ (get_all_neighboring_arcs csp v).getD [] ↔
      w = v ∧ ∃ cs, (i, cs) ∈ row := by
  rw [get_all_neighboring_arcs, hrow]
  simp only [Option.map_some', Option.getD_some, List.mem_map]
  constructor
  · rintro ⟨p, hp, hpe⟩
    injection hpe with h1 h2
    exact ⟨h2.symm, p.2, by rw [← h1]; exact hp⟩
  · rintro ⟨hw, cs, hcs⟩
    subst hw
    exact ⟨(i, cs), hcs, rfl⟩

theorem C7_neighboring_arcs_outgoing_witness :
    (("b", "a") ∈ (get_all_neighboring_arcs cspC7 "a").getD [] ↔
      "a" = "a" ∧ ∃ cs, ("b", cs) ∈ [("b", [((1 : Nat), (1 : Nat))])]) :=
  C7_neighboring_arcs_outgoing cspC7 "a" [("b", [(1, 1)])] rfl "b" "a"

/-- C8: on an arc-consistent snapshot (every value of domain(i) has a
supporting partner in domain(j) along every registered arc, and every arc
endpoint is a key), `inference` seeded with all arcs revises nothing: it
returns `true` with every domain unchanged and the worklist untouched, so a
second run — on the identical assignment — again changes nothing and
returns `true`. -/
theorem C8_inference_idempotent_on_arc_consistent {α : Type} [DecidableEq α]
    (csp : CSP α) (assign : Assign α)
    (hkeys : allArcsKeyed csp assign) (hac : arcConsistent csp assign) :
    inference csp assign (toQueue (get_all_arcs csp)) =
      (some (assign, true), toQueue (get_all_arcs csp)) := by
  rw [inference]
  have hgood : ∀ e ∈ toQueue (get_all_arcs csp),
      ∃ i j, e = (PyKey.name i, PyKey.name j) ∧ (i, j) ∈ get_all_arcs csp := by
    intro e he
    rw [toQueue, List.mem_map] at he
    obtain ⟨a, ha, hae⟩ := he
    exact ⟨a.1, a.2, hae.symm, ha⟩
  exact inferenceLoop_consistent hgood hkeys hac 0

/-- The store of the C8 witness: a two-variable inequality constraint,
registered in both directions, with both domains `[1, 2]` — already
arc-consistent. -/
def cspC8 : CSP Nat :=
  ⟨["a", "b"], [("a", [1, 2]), ("b", [1, 2])],
    [("a", [("b", [(1, 2), (2, 1)])]), ("b", [("a", [(1, 2), (2, 1)])])]⟩

theorem C8_inference_idempotent_witness :
    inference cspC8 [("a", [1, 2]), ("b", [1, 2])] (toQueue (get_all_arcs cspC8)) =
      (some ([("a", [1, 2]), ("b", [1, 2])], true), toQueue (get_all_arcs cspC8)) :=
  C8_inference_idempotent_on_arc_consistent cspC8 [("a", [1, 2]), ("b", [1, 2])]
    (by unfold allArcsKeyed; decide) (by unfold arcConsistent; decide)

/-- C9: propagation and search only ever shrink domains.  Whenever
`inference` returns a propagated assignment (with either boolean), every
domain in it is a sublist of the corresponding domain before the call, and
whenever `backtrack` returns a solution, every domain of the solution is a
sublist of the corresponding domain of the assignment `backtrack` received;
no operation ever adds a value. -/
theorem C9_domains_only_shrink {α : Type} [DecidableEq α] :
    (∀ (csp : CSP α) (assign : Assign α) (q : List (PyKey × PyKey))
       (a2 : Assign α) (b : Bool) (qf : List (PyKey × PyKey)),
       inference csp assign q = (some (a2, b), qf) →
       ∀ (v : String) (d2 : List α), dictGet v a2 = some d2 →
         ∃ d1, dictGet v assign = some d1 ∧ List.Sublist d2 d1) ∧
    (∀ (csp : CSP α) (assign s : Assign α),
       backtrack csp assign = BTRes.sol s →
       ∀ (v : String) (d2 : List α), dictGet v s = some d2 →
         ∃ d1, dictGet v assign = some d1 ∧ List.Sublist d2 d1) :=
  ⟨fun _ _ _ _ _ _ h _ _ hg => shrinks_dictGet (inference_shrinks h) hg,
   fun _ _ _ h _ _ hg => shrinks_dictGet (backtrack_shrinks h) hg⟩

theorem C9_domains_only_shrink_witness :
    ∃ d1, dictGet "a" [(("a" : String), [1]), ("b", [1])] = some d1 ∧
      List.Sublist ([] : List Nat) d1 := by
  have hrev : revise cspC6 [("a", [1]), ("b", [1])] (PyKey.name "a") (PyKey.name "b")
      = some ([("a", []), ("b", [1])], true) := by
    simp +decide [revise, reviseLoop, dictGet, dictSet, consLookup, cspC6]
  have hi : inference cspC6 [("a", [1]), ("b", [1])] (toQueue (get_all_arcs cspC6)) =
      (some ([("a", []), ("b", [1])], false), toQueue (get_all_arcs cspC6)) := by
    rw [inference]
    exact inferenceLoop_step_empty cspC6 [("a", [1]), ("b", [1])] [("a", []), ("b", [1])]
      (toQueue (get_all_arcs cspC6)) 0 "a" (by decide) hrev rfl rfl
  exact C9_domains_only_shrink.1 cspC6 [("a", [1]), ("b", [1])]
    (toQueue (get_all_arcs cspC6)) [("a", []), ("b", [1])] false
    (toQueue (get_all_arcs cspC6)) hi "a" [] rfl

end Assignment
